import Mathlib

/-!
# Verification of the tolerant JSON recovery pipeline

This file embeds the JSON-recovery parsing pipeline of the agent route
handler (`src/app/api/agent/route.ts`, the `POST` handler, lines 143-225)
as executable Lean definitions over `List Char`, together with a model of
the helper `parseLLMJson` (imported from `@/utils/jsonParser`, whose source
is not part of the repository snapshot; it is modelled from the spec).

Conventions:
* JavaScript strings are modelled as `List Char`.
* `JSON.parse` is modelled by `jsonParseChars` (strict ECMA-404 grammar);
  string and number values keep their raw lexemes, so deep equality of
  parses of equal texts is structural equality.
* Exceptions are modelled by `Option`: a stage that would throw returns
  `none`; the surrounding `try`/`catch` ladder becomes an explicit match.
-/

/-! ## Characters and character classes -/

/-- The backtick character (written via its code point). -/
def bt : Char := Char.ofNat 96

/-- The backslash character. -/
def bs : Char := '\\'

/-- The double-quote character. -/
def dq : Char := '"'

/-- The single-quote character (written via its code point). -/
def sqc : Char := Char.ofNat 39

/-- Line feed. -/
def nl : Char := '\n'

/-- Carriage return. -/
def cr : Char := '\r'

/-- Horizontal tab. -/
def tab : Char := '\t'

/-- The byte-order mark U+FEFF. -/
def bomChar : Char := Char.ofNat 0xFEFF

/-- JavaScript's regex `\s` / `String.trim` whitespace class (the members
relevant to text handling here; the full class also has exotic Unicode
spaces, treated identically). -/
def jsWs (c : Char) : Bool :=
  c = ' ' || c = tab || c = nl || c = cr ||
  c = Char.ofNat 0x0B || c = Char.ofNat 0x0C ||
  c = Char.ofNat 0xA0 || c = Char.ofNat 0x2028 ||
  c = Char.ofNat 0x2029 || c = bomChar

/-- JSON's whitespace class (ECMA-404): space, tab, LF, CR only. -/
def jsonWs (c : Char) : Bool :=
  c = ' ' || c = tab || c = nl || c = cr

/-- Identifier start character for the bare-key repair heuristic. -/
def identStart (c : Char) : Bool :=
  c.isAlpha || c = '_' || c = '$'

/-- Identifier continuation character. -/
def identChar (c : Char) : Bool :=
  c.isAlphanum || c = '_' || c = '$'

/-- Hexadecimal digit (for `\uXXXX` escapes). -/
def isHexDigit (c : Char) : Bool :=
  c.isDigit || ('a' ≤ c && c ≤ 'f') || ('A' ≤ c && c ≤ 'F')

/-! ## JSON values

String and number values store raw lexemes (the characters as they appear
in the source text, escapes undecoded); this keeps the representation
faithful for every comparison made in this development, which only ever
compares values produced by the same parser. -/

/-- A JavaScript value produced by the parsing pipeline: either a JSON
structure or a plain string (`.str` also represents the untouched input
when every strategy fails). -/
inductive JsonValue where
  | null
  | bool (b : Bool)
  | num (lexeme : List Char)
  | str (chars : List Char)
  | arr (elems : List JsonValue)
  | obj (membs : List (List Char × JsonValue))
deriving Repr

/-- JavaScript's `typeof v === 'object' && v` test: true exactly for objects and
arrays (`null` is falsy, scalars are not of object type). -/
def isObjLike : JsonValue → Bool
  | .obj _ => true
  | .arr _ => true
  | _ => false

/-! ## Strict JSON parsing (`JSON.parse`) -/

/-- Drop leading JSON whitespace. -/
def dropJsonWs (l : List Char) : List Char := l.dropWhile jsonWs

/-- Lexeme of the integer part of a JSON number (after the optional sign):
`0`, or a nonzero digit followed by digits. -/
def lexIntPart : List Char → Option (List Char × List Char)
  | [] => none
  | c :: r =>
    if c = '0' then some (['0'], r)
    else if c.isDigit then some (c :: r.takeWhile Char.isDigit, r.dropWhile Char.isDigit)
    else none

/-- Lexeme of the optional fraction part: `.` followed by one or more
digits; anything else contributes nothing and is left in place. -/
def lexFrac (l : List Char) : List Char × List Char :=
  match l with
  | '.' :: r =>
    match r.takeWhile Char.isDigit with
    | [] => ([], l)
    | ds => ('.' :: ds, r.dropWhile Char.isDigit)
  | _ => ([], l)

/-- Lexeme of the optional exponent part: `e`/`E`, optional sign, one or
more digits; anything else contributes nothing and is left in place. -/
def lexExp (l : List Char) : List Char × List Char :=
  match l with
  | c :: r =>
    if c = 'e' || c = 'E' then
      match r with
      | s :: r₂ =>
        if s = '+' || s = '-' then
          match r₂.takeWhile Char.isDigit with
          | [] => ([], l)
          | ds => (c :: s :: ds, r₂.dropWhile Char.isDigit)
        else
          match r.takeWhile Char.isDigit with
          | [] => ([], l)
          | ds => (c :: ds, r.dropWhile Char.isDigit)
      | [] => ([], l)
    else ([], l)
  | [] => ([], l)

/-- Lex a complete JSON number lexeme. -/
def lexNum (l : List Char) : Option (List Char × List Char) :=
  match l with
  | [] => none
  | c :: r =>
    if c = '-' then
      match lexIntPart r with
      | some (ds, r₂) =>
        let fr := lexFrac r₂
        let ex := lexExp fr.2
        some ('-' :: ds ++ fr.1 ++ ex.1, ex.2)
      | none => none
    else
      match lexIntPart (c :: r) with
      | some (ds, r₂) =>
        let fr := lexFrac r₂
        let ex := lexExp fr.2
        some (ds ++ fr.1 ++ ex.1, ex.2)
      | none => none

/-- Parse the body of a JSON string literal (the opening `"` already
consumed), returning the raw (undecoded) content and the rest of the
input after the closing `"`. Rejects unescaped control characters and
malformed escapes, as `JSON.parse` does. -/
def parseStrRaw : List Char → Option (List Char × List Char)
  | [] => none
  | c :: r =>
    if c = dq then some ([], r)
    else if c = bs then
      match r with
      | [] => none
      | e :: r₂ =>
        if e = dq || e = bs || e = '/' || e = 'b' || e = 'f' ||
            e = 'n' || e = 'r' || e = 't' then
          (parseStrRaw r₂).map (fun p => (bs :: e :: p.1, p.2))
        else if e = 'u' then
          match r₂ with
          | h₁ :: h₂ :: h₃ :: h₄ :: r₃ =>
            if isHexDigit h₁ && isHexDigit h₂ && isHexDigit h₃ && isHexDigit h₄ then
              (parseStrRaw r₃).map (fun p => (bs :: 'u' :: h₁ :: h₂ :: h₃ :: h₄ :: p.1, p.2))
            else none
          | _ => none
        else none
    else if c.toNat < 0x20 then none
    else (parseStrRaw r).map (fun p => (c :: p.1, p.2))

mutual

/-- Parse one JSON value starting at the given (whitespace-stripped)
position; fuel bounds the recursion. -/
def parseVal : Nat → List Char → Option (JsonValue × List Char)
  | 0, _ => none
  | _ + 1, [] => none
  | f + 1, c :: r =>
    if c = '{' then
      match dropJsonWs r with
      | [] => none
      | c₂ :: r₂ =>
        if c₂ = '}' then some (.obj [], r₂)
        else
          (parseMembs f (c₂ :: r₂)).map (fun p => (.obj p.1, p.2))
    else if c = '[' then
      match dropJsonWs r with
      | [] => none
      | c₂ :: r₂ =>
        if c₂ = ']' then some (.arr [], r₂)
        else (parseElems f (c₂ :: r₂)).map (fun p => (.arr p.1, p.2))
    else if c = dq then (parseStrRaw r).map (fun p => (.str p.1, p.2))
    else if c = 't' then
      match r with
      | 'r' :: 'u' :: 'e' :: r₂ => some (.bool true, r₂)
      | _ => none
    else if c = 'f' then
      match r with
      | 'a' :: 'l' :: 's' :: 'e' :: r₂ => some (.bool false, r₂)
      | _ => none
    else if c = 'n' then
      match r with
      | 'u' :: 'l' :: 'l' :: r₂ => some (.null, r₂)
      | _ => none
    else
      match lexNum (c :: r) with
      | some (ds, r₂) => some (.num ds, r₂)
      | none => none

/-- Parse a nonempty comma-separated list of array elements up to and
including the closing `]`. The input starts at the first element
(whitespace already stripped). -/
def parseElems : Nat → List Char → Option (List JsonValue × List Char)
  | 0, _ => none
  | f + 1, l =>
    match parseVal f l with
    | none => none
    | some (v, r) =>
      match dropJsonWs r with
      | ',' :: r₂ => (parseElems f (dropJsonWs r₂)).map (fun p => (v :: p.1, p.2))
      | ']' :: r₂ => some ([v], r₂)
      | _ => none

/-- Parse a nonempty comma-separated list of object members up to and
including the closing `}`. The input starts at the first member's key.  -/
def parseMembs : Nat → List Char → Option (List (List Char × JsonValue) × List Char)
  | 0, _ => none
  | f + 1, l =>
    match l with
    | c :: r =>
      if c = dq then
        match parseStrRaw r with
        | some (k, r₂) =>
          match dropJsonWs r₂ with
          | ':' :: r₃ =>
            match parseVal f (dropJsonWs r₃) with
            | some (v, r₄) =>
              match dropJsonWs r₄ with
              | ',' :: r₅ =>
                (parseMembs f (dropJsonWs r₅)).map (fun p => ((k, v) :: p.1, p.2))
              | '}' :: r₅ => some ([(k, v)], r₅)
              | _ => none
            | none => none
          | _ => none
        | none => none
      else none
    | [] => none

end

/-- Model of `JSON.parse` on a character list: parse one value surrounded by
optional whitespace; anything left over is a syntax error (`none`). -/
def jsonParseChars (l : List Char) : Option JsonValue :=
  match parseVal (l.length + 1) (dropJsonWs l) with
  | some (v, r) => if dropJsonWs r = [] then some v else none
  | none => none

/-! ## The preprocessor (route.ts, lines 148-160)

Strategy 1 of the handler: replace literal `\n`, `\r`, `\t` escape pairs,
strip markdown fences, trim. Each `String.replace(regex, '')` call is a
left-to-right global scan over the original string; the scanners below
reproduce that behaviour character by character. -/

/-- One `replace(/\\x/g, c)` pass: every adjacent pair of a backslash and
the letter `x` becomes the single character `c`; scanning is left to
right and non-overlapping, as for a JavaScript global regex. -/
def replEsc (x c : Char) : List Char → List Char
  | [] => []
  | [c₁] => [c₁]
  | c₁ :: c₂ :: r =>
    if c₁ = bs ∧ c₂ = x then c :: replEsc x c r
    else c₁ :: replEsc x c (c₂ :: r)

/-- The three escape-normalization passes of the preprocessor, in source
order: `\n`, then `\r`, then `\t`. -/
def escNorm (l : List Char) : List Char :=
  replEsc 't' tab (replEsc 'r' cr (replEsc 'n' nl l))

/-- Does the list start with `json` or `JSON` (the fence language tags the
opening-fence regex recognizes)? -/
def isTag4 (a b c d : Char) : Bool :=
  (a = 'j' && b = 's' && c = 'o' && d = 'n') ||
  (a = 'J' && b = 'S' && c = 'O' && d = 'N')

/-- Scanner for `replace(/^```(?:json|JSON)?\s*\n?/gm, '')`.

`skip` is true while the scanner is consuming the greedy `\s*` tail of a
match; `ls` is true when the current position is a line start in the
original string (so the `^` anchor can fire). A match consumes three
backticks, an optional tag, and a maximal whitespace run (which subsumes
the final `\n?`). -/
def oAux : Nat → Bool → Bool → List Char → List Char
  | 0, _, _, l => l
  | _ + 1, _, _, [] => []
  | f + 1, skip, ls, c :: r =>
    if skip ∧ jsWs c then oAux f true (c = nl) r
    else if ls ∧ c = bt then
      match r with
      | c₂ :: c₃ :: r₂ =>
        if c₂ = bt ∧ c₃ = bt then
          match r₂ with
          | c₄ :: c₅ :: c₆ :: c₇ :: r₃ =>
            if isTag4 c₄ c₅ c₆ c₇ then oAux f true false r₃
            else oAux f true false r₂
          | _ => oAux f true false r₂
        else c :: oAux f false false r
      | _ => c :: oAux f false false r
    else c :: oAux f false (c = nl) r

/-- Tail of a closing-fence match: `\s*$` after the three backticks. The
greedy whitespace run must either reach the end of the string, or back
off to just before its last newline (the `$` anchor in multiline mode);
returns the position at which scanning resumes, or `none` if the anchor
cannot match. -/
def closeTail (r : List Char) : Option (List Char) :=
  let run := r.takeWhile jsWs
  let rest := r.dropWhile jsWs
  if rest = [] then some []
  else
    if nl ∈ run then
      some (nl :: (run.reverse.takeWhile (fun c => ¬ c = nl)).reverse ++ rest)
    else none

/-- Try to match ```` ```\s*$ ```` at the start of `l`. -/
def tryClose (l : List Char) : Option (List Char) :=
  match l with
  | a :: b :: c :: r₂ =>
    if a = bt ∧ b = bt ∧ c = bt then closeTail r₂ else none
  | _ => none

/-- Scanner for `replace(/\n?```\s*$/gm, '')`: at every position, try the
pattern with its optional leading newline; on a match, resume at the
position `closeTail` computed (which may start with the newline the `$`
anchor matched before). Fuel bounds the recursion; `l.length` suffices
because every step consumes at least one character. -/
def cAux : Nat → List Char → List Char
  | 0, l => l
  | _ + 1, [] => []
  | f + 1, c :: r =>
    if c = nl then
      match tryClose r with
      | some rest => cAux f rest
      | none => c :: cAux f r
    else
      match tryClose (c :: r) with
      | some rest => cAux f rest
      | none => c :: cAux f r

/-- Model of `String.trim`: drop whitespace from both ends. -/
def trimChars (l : List Char) : List Char :=
  ((l.dropWhile jsWs).reverse.dropWhile jsWs).reverse

/-- The full preprocessor (route.ts lines 148-160): escape normalization,
opening-fence strip, closing-fence strip, trim. -/
def preprocessChars (l : List Char) : List Char :=
  trimChars (cAux (oAux (escNorm l).length false true (escNorm l)).length
    (oAux (escNorm l).length false true (escNorm l)))

/-! ## The recovery parser `parseLLMJson`

Modelled from the spec: the source of `@/utils/jsonParser` is not part of
the repository snapshot (only its caller in `route.ts` is), so the
recovery parser below follows the spec's contract (section 4.2): strict
parse, then fixed parse applying the documented textual repairs, then
extraction of balanced-delimiter spans by string-aware depth-counting,
then optional partial acceptance, then give-up returning the input
string. -/

/-- Modelled from the spec: the `ParseOptions` record (section 3). -/
structure LLMOpts where
  attemptFix : Bool
  maxBlocks : Nat
  preferFirst : Bool
  allowPartial : Bool

/-- Modelled from the spec: strip a leading byte-order mark. -/
def stripBOM : List Char → List Char
  | [] => []
  | c :: r => if c = bomChar then r else c :: r

/-- Scanner modes for comment removal. -/
inductive CMode where
  | code
  | instr
  | lineC
  | blockC

/-- Modelled from the spec: remove `//…` line comments and `/*…*/` block
comments occurring outside string literals. -/
def rmComments : Nat → CMode → List Char → List Char
  | 0, _, l => l
  | _ + 1, _, [] => []
  | f + 1, .code, c :: r =>
    if c = dq then c :: rmComments f .instr r
    else if c = '/' then
      match r with
      | '/' :: r₂ => rmComments f .lineC r₂
      | '*' :: r₂ => rmComments f .blockC r₂
      | _ => c :: rmComments f .code r
    else c :: rmComments f .code r
  | f + 1, .instr, c :: r =>
    if c = bs then
      match r with
      | e :: r₂ => c :: e :: rmComments f .instr r₂
      | [] => [c]
    else if c = dq then c :: rmComments f .code r
    else c :: rmComments f .instr r
  | f + 1, .lineC, c :: r =>
    if c = nl then c :: rmComments f .code r else rmComments f .lineC r
  | f + 1, .blockC, c :: r =>
    if c = '*' then
      match r with
      | '/' :: r₂ => rmComments f .code r₂
      | _ => rmComments f .blockC r
    else rmComments f .blockC r

/-- First character after optional JSON whitespace. -/
def firstNonWs (l : List Char) : Option Char := (l.dropWhile jsonWs).head?

/-- Modelled from the spec: drop a comma whose next significant character
closes an object or array. `inS`/`esc` track double-quoted strings. -/
def trailCommas : Bool → Bool → List Char → List Char
  | _, _, [] => []
  | true, true, c :: r => c :: trailCommas true false r
  | true, false, c :: r =>
    if c = bs then c :: trailCommas true true r
    else if c = dq then c :: trailCommas false false r
    else c :: trailCommas true false r
  | false, _, c :: r =>
    if c = dq then c :: trailCommas true false r
    else if c = ',' then
      match firstNonWs r with
      | some b => if b = '}' ∨ b = ']' then trailCommas false false r
                  else c :: trailCommas false false r
      | none => c :: trailCommas false false r
    else c :: trailCommas false false r

/-- Modelled from the spec: quote a bare identifier key when it directly
follows `{` or `,` (tracked as the last significant character `g`) and is
followed, after optional whitespace, by a colon. Fuel bounds recursion
(`l.length` suffices: every step consumes at least one character). -/
def bareKeys : Nat → Bool → Bool → Char → List Char → List Char
  | 0, _, _, _, l => l
  | _ + 1, _, _, _, [] => []
  | f + 1, true, true, g, c :: r => c :: bareKeys f true false g r
  | f + 1, true, false, g, c :: r =>
    if c = bs then c :: bareKeys f true true g r
    else if c = dq then c :: bareKeys f false false dq r
    else c :: bareKeys f true false g r
  | f + 1, false, _, g, c :: r =>
    if c = dq then c :: bareKeys f true false dq r
    else if identStart c ∧ (g = '{' ∨ g = ',') then
      let tl := r.takeWhile identChar
      let r₂ := r.dropWhile identChar
      match firstNonWs r₂ with
      | some ':' => dq :: c :: tl ++ dq :: bareKeys f false false dq r₂
      | _ => c :: tl ++ bareKeys f false false c r₂
    else if jsonWs c then c :: bareKeys f false false g r
    else c :: bareKeys f false false c r

/-- Scanner modes for single-quote normalization. -/
inductive QMode where
  | code
  | dqs
  | sqs

/-- Modelled from the spec: rewrite single-quoted string literals to
double-quoted ones, escaping embedded double quotes and unescaping `\'`. -/
def sq2dq : Nat → QMode → List Char → List Char
  | 0, _, l => l
  | _ + 1, _, [] => []
  | f + 1, .code, c :: r =>
    if c = dq then c :: sq2dq f .dqs r
    else if c = sqc then dq :: sq2dq f .sqs r
    else c :: sq2dq f .code r
  | f + 1, .dqs, c :: r =>
    if c = bs then
      match r with
      | e :: r₂ => c :: e :: sq2dq f .dqs r₂
      | [] => [c]
    else if c = dq then c :: sq2dq f .code r
    else c :: sq2dq f .dqs r
  | f + 1, .sqs, c :: r =>
    if c = bs then
      match r with
      | e :: r₂ =>
        if e = sqc then sqc :: sq2dq f .sqs r₂
        else c :: e :: sq2dq f .sqs r₂
      | [] => [c]
    else if c = sqc then dq :: sq2dq f .code r
    else if c = dq then bs :: dq :: sq2dq f .sqs r
    else c :: sq2dq f .sqs r

/-- Does the list start with an identifier character? (Word-boundary test
for the Python-literal rewrite.) -/
def startsIdent (l : List Char) : Bool :=
  match l with
  | c :: _ => identChar c
  | [] => false

/-- Modelled from the spec: rewrite bare `True`/`False`/`None` tokens
outside string literals to `true`/`false`/`null` (with word boundaries on
both sides; `pi` records whether the previous character was an
identifier character). -/
def pyLits : Nat → Bool → Bool → Bool → List Char → List Char
  | 0, _, _, _, l => l
  | _ + 1, _, _, _, [] => []
  | f + 1, true, true, pi, c :: r => c :: pyLits f true false pi r
  | f + 1, true, false, pi, c :: r =>
    if c = bs then c :: pyLits f true true pi r
    else if c = dq then c :: pyLits f false false false r
    else c :: pyLits f true false pi r
  | f + 1, false, _, pi, l =>
    match l with
    | 'T' :: 'r' :: 'u' :: 'e' :: r =>
      if pi = false ∧ startsIdent r = false then
        't' :: 'r' :: 'u' :: 'e' :: pyLits f false false true r
      else 'T' :: 'r' :: 'u' :: 'e' :: pyLits f false false true r
    | 'F' :: 'a' :: 'l' :: 's' :: 'e' :: r =>
      if pi = false ∧ startsIdent r = false then
        'f' :: 'a' :: 'l' :: 's' :: 'e' :: pyLits f false false true r
      else 'F' :: 'a' :: 'l' :: 's' :: 'e' :: pyLits f false false true r
    | 'N' :: 'o' :: 'n' :: 'e' :: r =>
      if pi = false ∧ startsIdent r = false then
        'n' :: 'u' :: 'l' :: 'l' :: pyLits f false false true r
      else 'N' :: 'o' :: 'n' :: 'e' :: pyLits f false false true r
    | c :: r =>
      if c = dq then c :: pyLits f true false false r
      else c :: pyLits f false false (identChar c) r
    | [] => []

/-- Modelled from the spec: the fixed-parse textual repairs, in the
documented order (section 4.2b). -/
def fixText (l : List Char) : List Char :=
  let l₁ := rmComments l.length .code (stripBOM l)
  let l₂ := trailCommas false false l₁
  let l₃ := bareKeys l₂.length false false ' ' l₂
  let l₄ := sq2dq l₃.length .code l₃
  pyLits l₄.length false false false l₄

/-! ## Span extraction by string-aware depth counting

Modelled from the spec (section 4.2c and section 9): scan for the first
`{` or `[`, then match its closing counterpart by keeping a nesting depth
that is blind to brackets inside string literals (tracking whether the
scanner is inside a string and whether the previous character was an
unescaped backslash). -/

/-- Split at the first opening bracket: returns the opener-free part and
the rest (which is empty or starts with `{`/`[`). -/
def findOpener : List Char → List Char × List Char
  | [] => ([], [])
  | c :: r =>
    if c = '{' ∨ c = '[' then ([], c :: r)
    else
      let p := findOpener r
      (c :: p.1, p.2)

/-- Depth-counting scanner, started just after an opening bracket (depth
1). Returns the consumed characters up to and including the bracket that
closes the span, plus the rest of the input; `none` if the span never
closes. `inS`/`esc` track double-quoted string literals and escapes, so
brackets inside string values do not affect the depth. -/
def scanSpanAux (d : Nat) (inS esc : Bool) : List Char → Option (List Char × List Char)
  | [] => none
  | c :: r =>
    if inS then
      if esc then (scanSpanAux d true false r).map (fun p => (c :: p.1, p.2))
      else if c = bs then (scanSpanAux d true true r).map (fun p => (c :: p.1, p.2))
      else if c = dq then (scanSpanAux d false false r).map (fun p => (c :: p.1, p.2))
      else (scanSpanAux d true false r).map (fun p => (c :: p.1, p.2))
    else
      if c = '{' ∨ c = '[' then (scanSpanAux (d + 1) false false r).map (fun p => (c :: p.1, p.2))
      else if c = '}' ∨ c = ']' then
        if d ≤ 1 then some ([c], r)
        else (scanSpanAux (d - 1) false false r).map (fun p => (c :: p.1, p.2))
      else if c = dq then (scanSpanAux d true false r).map (fun p => (c :: p.1, p.2))
      else (scanSpanAux d false false r).map (fun p => (c :: p.1, p.2))

/-- Extract the next candidate span: skip to the first opener, then scan
for its closing counterpart. Returns the span and the rest of the input
after it. -/
def extractStep (l : List Char) : Option (List Char × List Char) :=
  match (findOpener l).2 with
  | [] => none
  | c :: r => (scanSpanAux 1 false false r).map (fun p => (c :: p.1, p.2))

/-- The first candidate span of a string, if any. -/
def extractFirstSpan (l : List Char) : Option (List Char) :=
  (extractStep l).map (·.1)

/-- Up to `n` candidate spans, in document order. -/
def extractCands : Nat → List Char → List (List Char)
  | 0, _ => []
  | n + 1, l =>
    match extractStep l with
    | some (sp, rest) => sp :: extractCands n rest
    | none => []

/-- Modelled from the spec: strict parse of a span, then fixed parse of it
when fixes are enabled. -/
def tryStrictThenFix (fix : Bool) (l : List Char) : Option JsonValue :=
  match jsonParseChars l with
  | some v => some v
  | none => if fix then jsonParseChars (fixText l) else none

/-- Modelled from the spec: choose among the candidate spans: with
`preferFirst`, the first that parses; otherwise the largest (by character
length) that parses, earlier spans winning ties. -/
def pickCand (fix preferF : Bool) (cands : List (List Char)) : Option JsonValue :=
  let parsed := cands.filterMap (fun sp => (tryStrictThenFix fix sp).map (fun v => (sp, v)))
  if preferF then parsed.head?.map (·.2)
  else
    (parsed.foldl (fun acc p =>
      match acc with
      | none => some p
      | some q => if q.1.length < p.1.length then some p else some q) none).map (·.2)

/-- Bracket stack scanner for partial acceptance: returns the stack of
still-open brackets (most recent first) at the end of the input. -/
def scanStack : List Char → List Char → Bool → Bool → List Char
  | [], st, _, _ => st
  | _ :: r, st, true, true => scanStack r st true false
  | c :: r, st, true, false =>
    if c = bs then scanStack r st true true
    else if c = dq then scanStack r st false false
    else scanStack r st true false
  | c :: r, st, false, _ =>
    if c = '{' ∨ c = '[' then scanStack r (c :: st) false false
    else if c = '}' ∨ c = ']' then scanStack r st.tail false false
    else if c = dq then scanStack r st true false
    else scanStack r st false false

/-- Modelled from the spec: when a span is truncated, close it with the
minimal sequence of inferred closing delimiters. -/
def truncCand (l : List Char) : Option (List Char) :=
  match (findOpener l).2 with
  | [] => none
  | c :: r =>
    let st := scanStack (c :: r) [] false false
    if st = [] then none
    else some (c :: r ++ st.map (fun o => if o = '{' then '}' else ']'))

/-- Modelled from the spec: the recovery parser `parseLLMJson`
(section 4.2): strict parse; fixed parse when fixes are enabled;
extraction of up to `maxBlocks` candidate spans (the bound defensively
clamped to at least 1, section 7); partial acceptance when enabled; and
finally give-up, returning the input string itself. -/
def parseLLMJsonChars (l : List Char) (o : LLMOpts) : JsonValue :=
  match jsonParseChars l with
  | some v => v
  | none =>
    match (if o.attemptFix then jsonParseChars (fixText l) else none) with
    | some v => v
    | none =>
      match pickCand o.attemptFix o.preferFirst (extractCands (max 1 o.maxBlocks) l) with
      | some v => v
      | none =>
        if o.allowPartial then
          match truncCand l with
          | some pc =>
            match tryStrictThenFix o.attemptFix pc with
            | some v => v
            | none => .str l
          | none => .str l
        else .str l

/-! ## The handler's strategy ladder (route.ts, lines 143-215) -/

/-- Options of the strategy-3 call
`parseLLMJson(cleaned, { attemptFix: true, maxBlocks: 5, preferFirst: true, allowPartial: false })`. -/
def routeOpts3 : LLMOpts := ⟨true, 5, true, false⟩

/-- Options of the strategy-5 call `parseLLMJson(jsonMatch[0], { attemptFix: true })`;
the unspecified options take the spec's defaults (section 3):
`maxBlocks` 1, `preferFirst` true, `allowPartial` false. -/
def routeOpts5 : LLMOpts := ⟨true, 1, true, false⟩

/-- Strategy 4's regex `cleaned.match(/\{[\s\S]*\}|\[[\s\S]*\]/)`: the
leftmost match takes everything from the first opener that has a matching
closer somewhere after it, up to the **last** such closer in the whole
string (the `[\s\S]*` is greedy); braces win over brackets at the same
start position. -/
def regexExtract : List Char → Option (List Char)
  | [] => none
  | c :: r =>
    if c = '{' ∧ '}' ∈ r then
      some (c :: ((r.reverse.dropWhile (fun x => ¬ x = '}')).reverse))
    else if c = '[' ∧ ']' ∈ r then
      some (c :: ((r.reverse.dropWhile (fun x => ¬ x = ']')).reverse))
    else regexExtract r

/-- The ladder of parsing strategies the handler runs on the cleaned
string (route.ts lines 162-205). `some v` means some strategy installed
`v` into `parsedResponse` (which the guards allow only for truthy values
of object type); `none` means `parsedResponse` was left untouched.

* Strategy 2: `JSON.parse(cleaned)`; install if object-like. When it
  parses to a scalar, nothing is installed and - since no exception was
  thrown - no later strategy runs.
* Strategy 3 (in the `catch`): `parseLLMJson` with fixes; install if
  object-like, otherwise fall through.
* Strategy 4: regex extraction; `JSON.parse` of the matched span.
* Strategy 5 (in its `catch`): `parseLLMJson` on the matched span. -/
def strategies (c : List Char) : Option JsonValue :=
  match jsonParseChars c with
  | some v => if isObjLike v then some v else none
  | none =>
    if isObjLike (parseLLMJsonChars c routeOpts3) then some (parseLLMJsonChars c routeOpts3)
    else
      match regexExtract c with
      | none => none
      | some sp =>
        match jsonParseChars sp with
        | some ev => if isObjLike ev then some ev else none
        | none =>
          if isObjLike (parseLLMJsonChars sp routeOpts5) then
            some (parseLLMJsonChars sp routeOpts5)
          else none

/-- The whole pipeline on a string-typed upstream response (route.ts
lines 145-210): preprocess, run the ladder, and on total failure keep the
original (pre-preprocessing) input. The surrounding `try`/`catch` means
the pipeline never throws; here it is simply a total function. -/
def parsePipelineChars (s : List Char) : JsonValue :=
  match strategies (preprocessChars s) with
  | some v => v
  | none => .str s

/-- The value `parsedResponse` as a function of the upstream `data.response`
(route.ts lines 143-215): strings go through the pipeline; non-null
objects are used as-is; any other value keeps the initial value
`data.response` itself. -/
def handlerParse (d : JsonValue) : JsonValue :=
  match d with
  | .str s => parsePipelineChars s
  | d => d

/-- The data-dependent fields of the handler's success response
(route.ts lines 217-225): `response: parsedResponse` and
`raw_response: data.response`. -/
structure RouteSuccess where
  response : JsonValue
  raw_response : JsonValue

/-- Build the success response from the upstream value (route.ts lines
217-225). -/
def buildSuccess (d : JsonValue) : RouteSuccess :=
  ⟨handlerParse d, d⟩

/-! ## A declarative recognizer for well-formed spans

To state that the extraction scanner picks out exactly the first
balanced-delimiter span, we need an independent description of such
spans. `chkStrE`/`chkBal`/`chkSpan` recognize them by recursive descent
over the bracket structure (properly nested brackets, string literals
with escapes whose content is arbitrary); the lemmas below relate this
grammar to the flat depth-counting scanner. -/

/-- Recursive-descent recognizer for the body of a string literal (after
the opening quote); `e` is the escape state. Returns the rest of the
input after the closing quote. -/
def chkStrE : Bool → List Char → Option (List Char)
  | _, [] => none
  | true, _ :: r => chkStrE false r
  | false, c :: r =>
    if c = dq then some r
    else if c = bs then chkStrE true r
    else chkStrE false r

/-- Recursive-descent recognizer for a balanced sequence: arbitrary
non-structural characters, complete string literals, and properly nested
`{…}`/`[…]` groups. Consumes maximally and returns the rest, which is
empty or starts with an unmatched closing bracket. Fuel bounds the
recursion (`l.length + 1` suffices). -/
def chkBal : Nat → List Char → Option (List Char)
  | 0, _ => none
  | _ + 1, [] => some []
  | f + 1, c :: r =>
    if c = '}' ∨ c = ']' then some (c :: r)
    else if c = '{' then
      match chkBal f r with
      | some (c₂ :: r₂) => if c₂ = '}' then chkBal f r₂ else none
      | _ => none
    else if c = '[' then
      match chkBal f r with
      | some (c₂ :: r₂) => if c₂ = ']' then chkBal f r₂ else none
      | _ => none
    else if c = dq then
      match chkStrE false r with
      | some r₂ => chkBal f r₂
      | none => none
    else chkBal f r

/-- A well-formed span: an opening bracket, a balanced body, and the
matching closing bracket, with nothing after it. -/
def chkSpan : List Char → Bool
  | [] => false
  | c :: r =>
    if c = '{' then
      match chkBal (r.length + 1) r with
      | some l => l == ['}']
      | none => false
    else if c = '[' then
      match chkBal (r.length + 1) r with
      | some l => l == [']']
      | none => false
    else false

/-- Prepend consumed characters to a scanner outcome. -/
def prependSpan (p : List Char) (o : Option (List Char × List Char)) :
    Option (List Char × List Char) :=
  o.map (fun q => (p ++ q.1, q.2))

theorem prependSpan_nil (o : Option (List Char × List Char)) :
    prependSpan [] o = o := by
  cases o <;> simp [prependSpan]

theorem prependSpan_comp (a b : List Char) (o : Option (List Char × List Char)) :
    prependSpan a (prependSpan b o) = prependSpan (a ++ b) o := by
  cases o <;> simp [prependSpan]

theorem map_cons_prependSpan (c : Char) (o : Option (List Char × List Char)) :
    o.map (fun p => (c :: p.1, p.2)) = prependSpan [c] o := by
  cases o <;> simp [prependSpan]

/-! Step equations for the depth-counting scanner, one per transition of
its state machine. -/

theorem scan_instr_esc (d : Nat) (c : Char) (r : List Char) :
    scanSpanAux d true true (c :: r) = prependSpan [c] (scanSpanAux d true false r) := by
  simp [scanSpanAux, map_cons_prependSpan]

theorem scan_instr_bs (d : Nat) (r : List Char) :
    scanSpanAux d true false (bs :: r) = prependSpan [bs] (scanSpanAux d true true r) := by
  simp [scanSpanAux, map_cons_prependSpan]

theorem scan_instr_dq (d : Nat) (r : List Char) :
    scanSpanAux d true false (dq :: r) = prependSpan [dq] (scanSpanAux d false false r) := by
  have h : ¬ (dq = bs) := by decide
  simp [scanSpanAux, h, map_cons_prependSpan]

theorem scan_instr_other (d : Nat) (c : Char) (r : List Char)
    (h₁ : ¬ c = bs) (h₂ : ¬ c = dq) :
    scanSpanAux d true false (c :: r) = prependSpan [c] (scanSpanAux d true false r) := by
  simp [scanSpanAux, h₁, h₂, map_cons_prependSpan]

theorem scan_code_open (d : Nat) (c : Char) (r : List Char) (h : c = '{' ∨ c = '[') :
    scanSpanAux d false false (c :: r) = prependSpan [c] (scanSpanAux (d + 1) false false r) := by
  simp [scanSpanAux, h, map_cons_prependSpan]

theorem scan_code_close_deep (d : Nat) (c : Char) (r : List Char)
    (h : c = '}' ∨ c = ']') (hd : ¬ d ≤ 1) :
    scanSpanAux d false false (c :: r) = prependSpan [c] (scanSpanAux (d - 1) false false r) := by
  have h₁ : ¬ (c = '{' ∨ c = '[') := by rcases h with h | h <;> subst h <;> decide
  simp [scanSpanAux, h, h₁, hd, map_cons_prependSpan]

theorem scan_code_close_end (d : Nat) (c : Char) (r : List Char)
    (h : c = '}' ∨ c = ']') (hd : d ≤ 1) :
    scanSpanAux d false false (c :: r) = some ([c], r) := by
  have h₁ : ¬ (c = '{' ∨ c = '[') := by rcases h with h | h <;> subst h <;> decide
  simp [scanSpanAux, h, h₁, hd]

theorem scan_code_dq (d : Nat) (r : List Char) :
    scanSpanAux d false false (dq :: r) = prependSpan [dq] (scanSpanAux d true false r) := by
  have h₁ : ¬ (dq = '{' ∨ dq = '[') := by decide
  have h₂ : ¬ (dq = '}' ∨ dq = ']') := by decide
  simp [scanSpanAux, h₁, h₂, map_cons_prependSpan]

theorem scan_code_other (d : Nat) (c : Char) (r : List Char)
    (h₁ : ¬ (c = '{' ∨ c = '[')) (h₂ : ¬ (c = '}' ∨ c = ']')) (h₃ : ¬ c = dq) :
    scanSpanAux d false false (c :: r) = prependSpan [c] (scanSpanAux d false false r) := by
  simp [scanSpanAux, h₁, h₂, h₃, map_cons_prependSpan]

/-- Scanning the body of a recognized string literal never touches the
depth: the depth-counting scanner crosses it unchanged and leaves string
mode exactly at its end, whatever characters (including brackets) the
literal contains. -/
theorem chkStrE_scan :
    ∀ (l : List Char) (e : Bool) (r₂ : List Char), chkStrE e l = some r₂ →
      ∃ pfx, l = pfx ++ r₂ ∧ ∀ (d : Nat) (ext : List Char),
        scanSpanAux d true e (pfx ++ ext) = prependSpan pfx (scanSpanAux d false false ext) := by
  intro l
  induction l with
  | nil => intro e r₂ h; simp [chkStrE] at h
  | cons c r ih =>
    intro e r₂ h
    cases e with
    | true =>
      simp only [chkStrE] at h
      obtain ⟨pfx, hr, hscan⟩ := ih false r₂ h
      refine ⟨c :: pfx, by simp [hr], ?_⟩
      intro d ext
      rw [List.cons_append, scan_instr_esc, hscan d ext, prependSpan_comp]
      rfl
    | false =>
      by_cases hdq : c = dq
      · subst hdq
        simp only [chkStrE, if_pos rfl] at h
        cases h
        refine ⟨[dq], rfl, ?_⟩
        intro d ext
        rw [List.singleton_append, scan_instr_dq]
      · by_cases hbs : c = bs
        · subst hbs
          have hne : ¬ (bs = dq) := by decide
          simp only [chkStrE, if_neg hne, if_pos rfl] at h
          obtain ⟨pfx, hr, hscan⟩ := ih true r₂ h
          refine ⟨bs :: pfx, by simp [hr], ?_⟩
          intro d ext
          rw [List.cons_append, scan_instr_bs, hscan d ext, prependSpan_comp]
          rfl
        · simp only [chkStrE, if_neg hdq, if_neg hbs] at h
          obtain ⟨pfx, hr, hscan⟩ := ih false r₂ h
          refine ⟨c :: pfx, by simp [hr], ?_⟩
          intro d ext
          rw [List.cons_append, scan_instr_other d c _ hbs hdq, hscan d ext, prependSpan_comp]
          rfl

/-- Scanning a recognized balanced body from any depth `d ≥ 1` consumes
exactly that body, returning to depth `d` with no early termination:
nested groups raise the depth temporarily and string literals are crossed
without touching it. -/
theorem chkBal_scan :
    ∀ (f : Nat) (l r₂ : List Char), chkBal f l = some r₂ →
      ∃ pfx, l = pfx ++ r₂ ∧ ∀ (d : Nat), 1 ≤ d → ∀ (ext : List Char),
        scanSpanAux d false false (pfx ++ ext) = prependSpan pfx (scanSpanAux d false false ext) := by
  intro f
  induction f with
  | zero => intro l r₂ h; simp [chkBal] at h
  | succ f ih =>
    intro l r₂ h
    match l with
    | [] =>
      simp only [chkBal] at h
      cases h
      exact ⟨[], rfl, fun d _ ext => by rw [List.nil_append, prependSpan_nil]⟩
    | c :: r =>
      by_cases hcl : c = '}' ∨ c = ']'
      · simp only [chkBal, if_pos hcl] at h
        cases h
        exact ⟨[], rfl, fun d _ ext => by rw [List.nil_append, prependSpan_nil]⟩
      · by_cases hop : c = '{'
        · subst hop
          simp only [chkBal, if_neg hcl, if_pos rfl] at h
          rcases h₁ : chkBal f r with _ | l₁
          · rw [h₁] at h; simp at h
          · rw [h₁] at h
            rcases l₁ with _ | ⟨c₂, r₃⟩
            · simp at h
            · simp only at h
              by_cases hc₂ : c₂ = '}'
              · subst hc₂
                rw [if_pos rfl] at h
                obtain ⟨pfx₁, hr₁, hs₁⟩ := ih r _ h₁
                obtain ⟨pfx₂, hr₂, hs₂⟩ := ih r₃ r₂ h
                refine ⟨'{' :: pfx₁ ++ '}' :: pfx₂, by simp [hr₁, hr₂], ?_⟩
                intro d hd ext
                have hstep : ('{' :: pfx₁ ++ '}' :: pfx₂) ++ ext =
                    '{' :: (pfx₁ ++ ('}' :: (pfx₂ ++ ext))) := by simp
                rw [hstep, scan_code_open d '{' _ (Or.inl rfl),
                  hs₁ (d + 1) (by omega) ('}' :: (pfx₂ ++ ext)),
                  scan_code_close_deep (d + 1) '}' _ (Or.inl rfl) (by omega)]
                have hd1 : d + 1 - 1 = d := by omega
                rw [hd1, hs₂ d hd ext, prependSpan_comp, prependSpan_comp, prependSpan_comp]
                simp
              · rw [if_neg hc₂] at h; exact absurd h (by simp)
        · by_cases hob : c = '['
          · subst hob
            have hno : ¬ (']' : Char) = '{' := by decide
            simp only [chkBal, if_neg hcl, if_neg (by decide : ¬ ('[' : Char) = '{'),
              if_pos rfl] at h
            rcases h₁ : chkBal f r with _ | l₁
            · rw [h₁] at h; simp at h
            · rw [h₁] at h
              rcases l₁ with _ | ⟨c₂, r₃⟩
              · simp at h
              · simp only at h
                by_cases hc₂ : c₂ = ']'
                · subst hc₂
                  rw [if_pos rfl] at h
                  obtain ⟨pfx₁, hr₁, hs₁⟩ := ih r _ h₁
                  obtain ⟨pfx₂, hr₂, hs₂⟩ := ih r₃ r₂ h
                  refine ⟨'[' :: pfx₁ ++ ']' :: pfx₂, by simp [hr₁, hr₂], ?_⟩
                  intro d hd ext
                  have hstep : ('[' :: pfx₁ ++ ']' :: pfx₂) ++ ext =
                      '[' :: (pfx₁ ++ (']' :: (pfx₂ ++ ext))) := by simp
                  rw [hstep, scan_code_open d '[' _ (Or.inr rfl),
                    hs₁ (d + 1) (by omega) (']' :: (pfx₂ ++ ext)),
                    scan_code_close_deep (d + 1) ']' _ (Or.inr rfl) (by omega)]
                  have hd1 : d + 1 - 1 = d := by omega
                  rw [hd1, hs₂ d hd ext, prependSpan_comp, prependSpan_comp, prependSpan_comp]
                  simp
                · rw [if_neg hc₂] at h; exact absurd h (by simp)
          · by_cases hq : c = dq
            · subst hq
              simp only [chkBal, if_neg hcl, if_neg hop, if_neg hob, if_pos rfl] at h
              rcases h₁ : chkStrE false r with _ | r₃
              · rw [h₁] at h; simp at h
              · rw [h₁] at h
                simp only at h
                obtain ⟨pfxs, hrs, hss⟩ := chkStrE_scan r false r₃ h₁
                obtain ⟨pfx₂, hr₂, hs₂⟩ := ih r₃ r₂ h
                refine ⟨dq :: pfxs ++ pfx₂, by simp [hrs, hr₂], ?_⟩
                intro d hd ext
                have hstep : (dq :: pfxs ++ pfx₂) ++ ext = dq :: (pfxs ++ (pfx₂ ++ ext)) := by
                  simp
                rw [hstep, scan_code_dq, hss d (pfx₂ ++ ext), hs₂ d hd ext,
                  prependSpan_comp, prependSpan_comp]
                simp
            · simp only [chkBal, if_neg hcl, if_neg hop, if_neg hob, if_neg hq] at h
              obtain ⟨pfx₁, hr₁, hs₁⟩ := ih r r₂ h
              refine ⟨c :: pfx₁, by simp [hr₁], ?_⟩
              intro d hd ext
              rw [List.cons_append,
                scan_code_other d c _ (by tauto) hcl hq,
                hs₁ d hd ext, prependSpan_comp]
              rfl

/-- Skipping an opener-free part does not change where the first span
starts. -/
theorem findOpener_skip :
    ∀ (pre l : List Char), (∀ c ∈ pre, ¬ (c = '{' ∨ c = '[')) →
      (findOpener (pre ++ l)).2 = (findOpener l).2 := by
  intro pre
  induction pre with
  | nil => intro l _; rfl
  | cons c p ih =>
    intro l h
    have hc := h c (by simp)
    simp only [List.cons_append, findOpener, if_neg hc]
    exact ih l (fun x hx => h x (by simp [hx]))

/-- C4: For every cleaned string containing JSON embedded in surrounding
prose, the extraction stage selects the first balanced-delimiter span
beginning with `{` or `[` by matching its closing counterpart with
depth-counting that tracks string-literal boundaries and unescaped
backslashes, so that braces appearing inside string values do not affect
the depth count or the chosen span. Formally: whenever the input splits
as `pre ++ sp ++ post` with `pre` free of opening brackets and `sp` a
well-formed span (whose string literals may contain arbitrary brackets
and escaped quotes), the extractor returns exactly `sp`. The extraction
stage is part of `parseLLMJson`, whose source is not in the snapshot;
`extractStep`/`scanSpanAux` are modelled from the spec (sections 4.2c
and 9). -/
theorem claim4_extraction (pre sp post : List Char)
    (hpre : ∀ c ∈ pre, ¬ (c = '{' ∨ c = '[')) (hsp : chkSpan sp = true) :
    extractFirstSpan (pre ++ sp ++ post) = some sp := by
  match sp with
  | [] => simp [chkSpan] at hsp
  | c :: r =>
    by_cases hob : c = '{'
    · subst hob
      simp only [chkSpan, if_pos rfl] at hsp
      rcases h₁ : chkBal (r.length + 1) r with _ | l₁
      · rw [h₁] at hsp; simp at hsp
      · rw [h₁] at hsp
        simp only [if_true, beq_iff_eq] at hsp
        subst hsp
        obtain ⟨pfx, hr, hs⟩ := chkBal_scan (r.length + 1) r _ h₁
        have hfo : (findOpener (pre ++ ('{' :: r) ++ post)).2 = '{' :: (r ++ post) := by
          rw [List.append_assoc, findOpener_skip pre _ hpre]
          simp [findOpener]
        simp only [extractFirstSpan, extractStep, hfo]
        have hre : r ++ post = pfx ++ ('}' :: post) := by
          rw [hr]; simp
        rw [hre, hs 1 (by omega) ('}' :: post),
          scan_code_close_end 1 '}' post (Or.inl rfl) (by omega)]
        simp [prependSpan, hr]
    · by_cases hbb : c = '['
      · subst hbb
        simp only [chkSpan, if_neg (by decide : ¬ ('[' : Char) = '{'), if_pos rfl] at hsp
        rcases h₁ : chkBal (r.length + 1) r with _ | l₁
        · rw [h₁] at hsp; simp at hsp
        · rw [h₁] at hsp
          simp only [if_true, beq_iff_eq] at hsp
          subst hsp
          obtain ⟨pfx, hr, hs⟩ := chkBal_scan (r.length + 1) r _ h₁
          have hfo : (findOpener (pre ++ ('[' :: r) ++ post)).2 = '[' :: (r ++ post) := by
            rw [List.append_assoc, findOpener_skip pre _ hpre]
            simp [findOpener]
          simp only [extractFirstSpan, extractStep, hfo]
          have hre : r ++ post = pfx ++ (']' :: post) := by
            rw [hr]; simp
          rw [hre, hs 1 (by omega) (']' :: post),
            scan_code_close_end 1 ']' post (Or.inr rfl) (by omega)]
          simp [prependSpan, hr]
      · simp [chkSpan, hob, hbb] at hsp

/-- Witness for C4 at a concrete input whose span's string value contains
a closing brace and an escaped quote, flanked by prose on both sides (and
by a second span, which must not be chosen). -/
theorem claim4_extraction_witness :
    extractFirstSpan "Note: \x7b\"a\":\"x\\\"\x7dy\"\x7d rest \x7b\"b\":2\x7d".data =
      some "\x7b\"a\":\"x\\\"\x7dy\"\x7d".data := by
  have h := claim4_extraction "Note: ".data "\x7b\"a\":\"x\\\"\x7dy\"\x7d".data " rest \x7b\"b\":2\x7d".data
    (by decide) (by decide)
  exact h

/-! ## Behaviour of the escape-normalization passes (C5) -/

theorem replEsc_head (x y c : Char) (l : List Char) (h : ¬ c = bs) :
    replEsc x y (c :: l) = c :: replEsc x y l := by
  match l with
  | [] => rfl
  | c₂ :: r => simp [replEsc, h]

theorem replEsc_no_bs (x y : Char) :
    ∀ l : List Char, bs ∉ l → replEsc x y l = l := by
  intro l
  induction l with
  | nil => intro _; rfl
  | cons c r ih =>
    intro h
    have hc : ¬ c = bs := fun he => h (by simp [he])
    rw [replEsc_head x y c r hc, ih (fun hm => h (List.mem_cons_of_mem c hm))]

theorem replEsc_pair (x y : Char) (l : List Char) :
    replEsc x y (bs :: x :: l) = y :: replEsc x y l := by
  simp [replEsc]

theorem replEsc_bs_other (x y c₂ : Char) (l : List Char) (h : ¬ c₂ = x) :
    replEsc x y (bs :: c₂ :: l) = bs :: replEsc x y (c₂ :: l) := by
  simp [replEsc, h]

theorem escNorm_no_bs (l : List Char) (h : bs ∉ l) : escNorm l = l := by
  unfold escNorm
  rw [replEsc_no_bs 'n' nl l h, replEsc_no_bs 'r' cr l h, replEsc_no_bs 't' tab l h]

theorem escNorm_head (c : Char) (l : List Char) (h : ¬ c = bs) :
    escNorm (c :: l) = c :: escNorm l := by
  unfold escNorm
  rw [replEsc_head 'n' nl c l h, replEsc_head 'r' cr c _ h, replEsc_head 't' tab c _ h]

theorem escNorm_n (l : List Char) : escNorm (bs :: 'n' :: l) = nl :: escNorm l := by
  unfold escNorm
  rw [replEsc_pair 'n' nl l,
    replEsc_head 'r' cr nl _ (by decide), replEsc_head 't' tab nl _ (by decide)]

theorem escNorm_r (l : List Char) : escNorm (bs :: 'r' :: l) = cr :: escNorm l := by
  unfold escNorm
  rw [replEsc_bs_other 'n' nl 'r' l (by decide), replEsc_head 'n' nl 'r' l (by decide),
    replEsc_pair 'r' cr _, replEsc_head 't' tab cr _ (by decide)]

theorem escNorm_t (l : List Char) : escNorm (bs :: 't' :: l) = tab :: escNorm l := by
  unfold escNorm
  rw [replEsc_bs_other 'n' nl 't' l (by decide), replEsc_head 'n' nl 't' l (by decide),
    replEsc_bs_other 'r' cr 't' _ (by decide), replEsc_head 'r' cr 't' _ (by decide),
    replEsc_pair 't' tab _]

/-! ## Behaviour of the fence-stripping passes (C6) -/

/-- The characters of a closing fence line. -/
def closeFence : List Char := [nl, bt, bt, bt]

/-- Wrap content in a markdown code fence: an opening triple-backtick
line carrying the given language tag (possibly empty), the content, and
a closing triple-backtick line. -/
def fenceChars (tag c : List Char) : List Char :=
  [bt, bt, bt] ++ tag ++ (nl :: (c ++ closeFence))

/-- The opening-fence scanner leaves backtick-free text unchanged. -/
theorem oAux_no_bt :
    ∀ (l : List Char) (f : Nat) (ls : Bool), l.length ≤ f → bt ∉ l →
      oAux f false ls l = l := by
  intro l
  induction l with
  | nil => intro f ls _ _; cases f <;> rfl
  | cons c r ih =>
    intro f ls hf hm
    match f, hf with
    | f' + 1, hf =>
      have hc : ¬ c = bt := fun he => hm (by simp [he])
      have : oAux (f' + 1) false ls (c :: r) = c :: oAux f' false (c = nl) r := by
        simp [oAux, hc]
      rw [this, ih f' (c = nl) (by simpa using hf) (fun hm2 => hm (List.mem_cons_of_mem c hm2))]

/-- A closing-fence match requires three backticks, so it fails on
backtick-free text. -/
theorem tryClose_no_bt (l : List Char) (h : bt ∉ l) : tryClose l = none := by
  match l with
  | [] => rfl
  | [a] => rfl
  | [a, b] => rfl
  | a :: b :: c :: r =>
    have ha : ¬ a = bt := fun he => h (by simp [he])
    simp [tryClose, ha]

/-- The closing-fence scanner leaves backtick-free text unchanged. -/
theorem cAux_no_bt :
    ∀ (f : Nat) (l : List Char), l.length ≤ f → bt ∉ l → cAux f l = l := by
  intro f
  induction f with
  | zero => intro l _ _; rfl
  | succ f ih =>
    intro l hf hm
    match l with
    | [] => rfl
    | c :: r =>
      have hmr : bt ∉ r := fun hm2 => hm (List.mem_cons_of_mem c hm2)
      have htc : tryClose (c :: r) = none := tryClose_no_bt _ hm
      have htr : tryClose r = none := tryClose_no_bt _ hmr
      by_cases hnl : c = nl
      · subst hnl
        have hstep : cAux (f + 1) (nl :: r) = nl :: cAux f r := by
          simp [cAux, htr]
        rw [hstep, ih r (by simpa using hf) hmr]
      · have hstep : cAux (f + 1) (c :: r) = c :: cAux f r := by
          simp [cAux, hnl, htc]
        rw [hstep, ih r (by simpa using hf) hmr]

/-- If `dropWhile` empties a list, appending continues dropping into the
suffix. -/
theorem dropWhile_append_nil (p : Char → Bool) :
    ∀ (l m : List Char), l.dropWhile p = [] → (l ++ m).dropWhile p = m.dropWhile p := by
  intro l
  induction l with
  | nil => intro m _; rfl
  | cons c r ih =>
    intro m h
    by_cases hc : p c
    · rw [List.dropWhile_cons_of_pos hc] at h
      rw [List.cons_append, List.dropWhile_cons_of_pos hc]
      exact ih m h
    · rw [List.dropWhile_cons_of_neg (by simpa using hc)] at h
      simp at h

/-- If `dropWhile` stops inside the list, appending just carries the
suffix along. -/
theorem dropWhile_append_cons (p : Char → Bool) :
    ∀ (l m a : List Char) (c : Char), l.dropWhile p = c :: a →
      (l ++ m).dropWhile p = c :: a ++ m := by
  intro l
  induction l with
  | nil => intro m a c h; simp at h
  | cons x r ih =>
    intro m a c h
    by_cases hx : p x
    · rw [List.dropWhile_cons_of_pos hx] at h
      rw [List.cons_append, List.dropWhile_cons_of_pos hx]
      exact ih m a c h
    · rw [List.dropWhile_cons_of_neg (by simpa using hx)] at h
      cases h
      rw [List.cons_append, List.dropWhile_cons_of_neg (by simpa using hx)]

/-- Appending a whitespace character does not change the trimmed string. -/
theorem trimChars_snoc (l : List Char) (w : Char) (hw : jsWs w = true) :
    trimChars (l ++ [w]) = trimChars l := by
  unfold trimChars
  rcases h : l.dropWhile jsWs with _ | ⟨a, A⟩
  · have h1 : (l ++ [w]).dropWhile jsWs = [w].dropWhile jsWs :=
      dropWhile_append_nil jsWs l [w] h
    have h2 : ([w] : List Char).dropWhile jsWs = [] := by
      simp [List.dropWhile, hw]
    rw [h1, h2]
  · have h1 : (l ++ [w]).dropWhile jsWs = a :: A ++ [w] :=
      dropWhile_append_cons jsWs l [w] A a h
    rw [h1]
    have h3 : (a :: A ++ [w]).reverse = w :: (a :: A).reverse := by simp
    rw [h3, List.dropWhile_cons_of_pos hw]

/-- A trimmed, nonempty string starts with a non-whitespace character. -/
theorem trim_head_not_ws (c : Char) (r : List Char)
    (h : trimChars (c :: r) = c :: r) : jsWs c = false := by
  by_contra hc
  have hc' : jsWs c = true := by
    cases hcv : jsWs c
    · exact absurd hcv hc
    · rfl
  have hlen : (trimChars (c :: r)).length ≤ r.length := by
    unfold trimChars
    rw [List.dropWhile_cons_of_pos hc']
    calc ((r.dropWhile jsWs).reverse.dropWhile jsWs).reverse.length
        = ((r.dropWhile jsWs).reverse.dropWhile jsWs).length := by
          rw [List.length_reverse]
      _ ≤ (r.dropWhile jsWs).reverse.length :=
          (List.dropWhile_suffix jsWs).sublist.length_le
      _ = (r.dropWhile jsWs).length := by rw [List.length_reverse]
      _ ≤ r.length := (List.dropWhile_suffix jsWs).sublist.length_le
  rw [h] at hlen
  simp at hlen

theorem oAux_nil (f : Nat) (sk ls : Bool) : oAux f sk ls [] = [] := by
  cases f <;> rfl

/-- An ordinary character (not a backtick at a line start) is emitted
unchanged in normal mode. -/
theorem oAux_emit_step (f : Nat) (ls : Bool) (c : Char) (r : List Char) (hc : ¬ c = bt) :
    oAux (f + 1) false ls (c :: r) = c :: oAux f false (c = nl) r := by
  cases ls
  · rfl
  · simp [oAux, hc]

/-- Consuming an opening fence tagged `json`: three backticks at a line
start, the tag, then the newline is eaten by the greedy whitespace run. -/
theorem oAux_open_json (f : Nat) (x : List Char) :
    oAux (f + 2) false true (bt :: bt :: bt :: 'j' :: 's' :: 'o' :: 'n' :: nl :: (x ++ closeFence)) =
      oAux f true true (x ++ closeFence) := rfl

/-- Consuming an opening fence tagged `JSON` (the other tag the regex
recognizes). -/
theorem oAux_open_caps (f : Nat) (x : List Char) :
    oAux (f + 2) false true (bt :: bt :: bt :: 'J' :: 'S' :: 'O' :: 'N' :: nl :: (x ++ closeFence)) =
      oAux f true true (x ++ closeFence) := rfl

/-- Consuming an opening fence with no language tag: the optional tag
group matches empty, and the newline is eaten by the whitespace run. -/
theorem oAux_open_plain (f : Nat) (x : List Char) :
    oAux (f + 2) false true (bt :: bt :: bt :: nl :: x) = oAux f true true x := by
  match x with
  | [] => rfl
  | [a] => rfl
  | [a, b] => rfl
  | a :: b :: c :: r => rfl

/-- In whitespace-skipping mode, a newline is consumed and records a line
start. -/
theorem oAux_skip_nl (f : Nat) (ls : Bool) (r : List Char) :
    oAux (f + 1) true ls (nl :: r) = oAux f true true r := rfl

/-- Whitespace-skipping mode ends at a non-whitespace character, which is
then processed normally. -/
theorem oAux_skip_exit (f : Nat) (ls : Bool) (c : Char) (r : List Char)
    (hws : jsWs c = false) (hc : ¬ c = bt) :
    oAux (f + 1) true ls (c :: r) = c :: oAux f false (c = nl) r := by
  cases ls <;> simp [oAux, hws, hc]

/-- Emitting backtick-free text followed by the closing fence: the text
passes through, the newline before the fence is emitted, and the fence
itself (a backtick line at a line start) is consumed by the opening-fence
regex. -/
theorem oAux_emit :
    ∀ (m : List Char) (f : Nat) (ls : Bool), bt ∉ m → m.length + 2 ≤ f →
      oAux f false ls (m ++ closeFence) = m ++ [nl] := by
  intro m
  induction m with
  | nil =>
    intro f ls _ hf
    obtain ⟨f₂, rfl⟩ : ∃ k, f = k + 2 := ⟨f - 2, by omega⟩
    rw [List.nil_append]
    show oAux (f₂ + 1 + 1) false ls (nl :: [bt, bt, bt]) = [nl]
    rw [oAux_emit_step (f₂ + 1) ls nl [bt, bt, bt] (by decide)]
    show nl :: oAux f₂ true false [] = [nl]
    rw [oAux_nil]
  | cons c m' ih =>
    intro f ls hm hf
    obtain ⟨f', rfl⟩ : ∃ k, f = k + 1 := ⟨f - 1, by omega⟩
    have hc : ¬ c = bt := fun he => hm (by simp [he])
    rw [List.cons_append, oAux_emit_step f' ls c _ hc,
      ih f' (c = nl) (fun h2 => hm (List.mem_cons_of_mem c h2)) (by simp at hf; omega)]
    rfl

/-- After the opening fence is consumed, the whitespace-skipping scanner
turns the rest (trimmed, backtick-free content plus the closing fence)
into a backtick-free string that trims to the content: the content passes
through and the closing fence is consumed. -/
theorem preprocess_tail (c : List Char) (f : Nat) (hbt : bt ∉ c) (htr : trimChars c = c)
    (hf : c.length + 2 ≤ f) :
    ∃ o, oAux f true true (c ++ closeFence) = o ∧ bt ∉ o ∧ trimChars o = c := by
  match c, hbt, htr with
  | [], _, _ =>
    refine ⟨[], ?_, by decide, by decide⟩
    obtain ⟨f₂, rfl⟩ : ∃ k, f = k + 2 := ⟨f - 2, by omega⟩
    show oAux f₂ true false [] = []
    rw [oAux_nil]
  | c₀ :: c', hbt, htr =>
    refine ⟨(c₀ :: c') ++ [nl], ?_, ?_, ?_⟩
    · obtain ⟨f', rfl⟩ : ∃ k, f = k + 1 := ⟨f - 1, by omega⟩
      have hws : jsWs c₀ = false := trim_head_not_ws c₀ c' htr
      have hc₀ : ¬ c₀ = bt := fun he => hbt (by simp [he])
      rw [List.cons_append, oAux_skip_exit f' true c₀ _ hws hc₀,
        oAux_emit c' f' (c₀ = nl) (fun h₂ => hbt (List.mem_cons_of_mem c₀ h₂))
          (by simp at hf; omega)]
      rfl
    · intro hmem
      rcases List.mem_append.1 hmem with h | h
      · exact hbt h
      · exact absurd h (by decide)
    · rw [trimChars_snoc (c₀ :: c') nl (by decide), htr]

/-- C6 (amended core): for a fence whose language tag is one the
opening-fence regex recognizes (`json`, `JSON`, or no tag), preprocessing
the fenced string and preprocessing the bare content agree, for content
without backslashes or backticks that is already trimmed; on such content
the preprocessor is the identity. -/
theorem preprocess_fence (tag c : List Char)
    (htag : tag = "json".data ∨ tag = "JSON".data ∨ tag = [])
    (hbs : bs ∉ c) (hbt : bt ∉ c) (htr : trimChars c = c) :
    preprocessChars (fenceChars tag c) = preprocessChars c ∧ preprocessChars c = c := by
  have hrhs : preprocessChars c = c := by
    unfold preprocessChars
    rw [escNorm_no_bs c hbs, oAux_no_bt c c.length true le_rfl hbt]
    rw [cAux_no_bt c.length c le_rfl hbt, htr]
  refine ⟨?_, hrhs⟩
  rw [hrhs]
  rcases htag with htag | htag | htag <;> subst htag
  · have hbsf : bs ∉ fenceChars "json".data c := by
      intro hmem
      rw [show fenceChars "json".data c =
          ([bt, bt, bt, 'j', 's', 'o', 'n', nl] ++ c) ++ closeFence from rfl] at hmem
      rcases List.mem_append.1 hmem with h | h
      · rcases List.mem_append.1 h with h₂ | h₂
        · exact absurd h₂ (by decide)
        · exact hbs h₂
      · exact absurd h (by decide)
    have hL : fenceChars "json".data c =
        bt :: bt :: bt :: 'j' :: 's' :: 'o' :: 'n' :: nl :: (c ++ closeFence) := rfl
    have hlen : (bt :: bt :: bt :: 'j' :: 's' :: 'o' :: 'n' :: nl :: (c ++ closeFence)).length
        = (c.length + 10) + 2 := by
      simp only [closeFence, List.length_cons, List.length_append, List.length_nil]
    unfold preprocessChars
    rw [escNorm_no_bs _ hbsf, hL, hlen, oAux_open_json (c.length + 10) c]
    obtain ⟨o, ho, hbto, htro⟩ := preprocess_tail c (c.length + 10) hbt htr (by omega)
    rw [ho, cAux_no_bt o.length o le_rfl hbto, htro]
  · have hbsf : bs ∉ fenceChars "JSON".data c := by
      intro hmem
      rw [show fenceChars "JSON".data c =
          ([bt, bt, bt, 'J', 'S', 'O', 'N', nl] ++ c) ++ closeFence from rfl] at hmem
      rcases List.mem_append.1 hmem with h | h
      · rcases List.mem_append.1 h with h₂ | h₂
        · exact absurd h₂ (by decide)
        · exact hbs h₂
      · exact absurd h (by decide)
    have hL : fenceChars "JSON".data c =
        bt :: bt :: bt :: 'J' :: 'S' :: 'O' :: 'N' :: nl :: (c ++ closeFence) := rfl
    have hlen : (bt :: bt :: bt :: 'J' :: 'S' :: 'O' :: 'N' :: nl :: (c ++ closeFence)).length
        = (c.length + 10) + 2 := by
      simp only [closeFence, List.length_cons, List.length_append, List.length_nil]
    unfold preprocessChars
    rw [escNorm_no_bs _ hbsf, hL, hlen, oAux_open_caps (c.length + 10) c]
    obtain ⟨o, ho, hbto, htro⟩ := preprocess_tail c (c.length + 10) hbt htr (by omega)
    rw [ho, cAux_no_bt o.length o le_rfl hbto, htro]
  · have hbsf : bs ∉ fenceChars [] c := by
      intro hmem
      rw [show fenceChars [] c =
          ([bt, bt, bt, nl] ++ c) ++ closeFence from rfl] at hmem
      rcases List.mem_append.1 hmem with h | h
      · rcases List.mem_append.1 h with h₂ | h₂
        · exact absurd h₂ (by decide)
        · exact hbs h₂
      · exact absurd h (by decide)
    have hL : fenceChars [] c = bt :: bt :: bt :: nl :: (c ++ closeFence) := rfl
    have hlen : (bt :: bt :: bt :: nl :: (c ++ closeFence)).length
        = (c.length + 6) + 2 := by
      simp only [closeFence, List.length_cons, List.length_append, List.length_nil]
    unfold preprocessChars
    rw [escNorm_no_bs _ hbsf, hL, hlen, oAux_open_plain (c.length + 6) (c ++ closeFence)]
    obtain ⟨o, ho, hbto, htro⟩ := preprocess_tail c (c.length + 6) hbt htr (by omega)
    rw [ho, cAux_no_bt o.length o le_rfl hbto, htro]

/-! ## The claims -/

/-- Helper: a value the ladder installs always passed the object-type
guard, since every installation site checks `parsed && typeof parsed ===
'object'` first. -/
theorem strategies_isObjLike (c : List Char) (v : JsonValue)
    (h : strategies c = some v) : isObjLike v = true := by
  unfold strategies at h
  rcases h₁ : jsonParseChars c with _ | w
  · rw [h₁] at h
    simp only at h
    by_cases h₂ : isObjLike (parseLLMJsonChars c routeOpts3) = true
    · rw [if_pos h₂] at h
      cases h
      exact h₂
    · rw [if_neg h₂] at h
      rcases h₃ : regexExtract c with _ | sp
      · rw [h₃] at h
        exact absurd h (by simp)
      · rw [h₃] at h
        simp only at h
        rcases h₄ : jsonParseChars sp with _ | ev
        · rw [h₄] at h
          simp only at h
          by_cases h₅ : isObjLike (parseLLMJsonChars sp routeOpts5) = true
          · rw [if_pos h₅] at h
            cases h
            exact h₅
          · rw [if_neg h₅] at h
            exact absurd h (by simp)
        · rw [h₄] at h
          simp only at h
          by_cases h₅ : isObjLike ev = true
          · rw [if_pos h₅] at h
            cases h
            exact h₅
          · rw [if_neg h₅] at h
            exact absurd h (by simp)
  · rw [h₁] at h
    simp only at h
    by_cases h₂ : isObjLike w = true
    · rw [if_pos h₂] at h
      cases h
      exact h₂
    · rw [if_neg h₂] at h
      exact absurd h (by simp)

/-- C1: For every input string, the recovery-parsing pipeline never
raises to its caller (in the embedding, `parsePipelineChars` is a total
function): if every strategy fails to produce an object, the result is
the original, pre-preprocessing input string returned verbatim, not the
cleaned string and not an error. -/
theorem claim1_degrade (s : List Char) (h : strategies (preprocessChars s) = none) :
    parsePipelineChars s = JsonValue.str s ∧
      (¬ preprocessChars s = s → ¬ parsePipelineChars s = JsonValue.str (preprocessChars s)) := by
  constructor
  · unfold parsePipelineChars
    rw [h]
  · intro hne hcl
    unfold parsePipelineChars at hcl
    rw [h] at hcl
    injection hcl with h₂
    exact hne h₂.symm

/-- Witness for C1 at a fenced prose input: every strategy fails, the
original fenced string comes back, and the cleaned string does not. -/
theorem claim1_degrade_witness :
    parsePipelineChars "```json\nnice day\n```".data =
        JsonValue.str "```json\nnice day\n```".data ∧
      ¬ parsePipelineChars "```json\nnice day\n```".data =
        JsonValue.str "nice day".data := by
  have h := claim1_degrade "```json\nnice day\n```".data rfl
  exact ⟨h.1, h.2 (by decide)⟩

/-- C2 counterexample: `"42"` is valid JSON, but the pipeline returns the
original string `"42"`, not the number a strict conformant parse
produces: the strict-parse stage only installs truthy values of object
type, and a successful scalar parse does not throw, so no later strategy
runs either. -/
theorem claim2_cex :
    jsonParseChars "42".data = some (JsonValue.num ['4', '2']) ∧
      parsePipelineChars "42".data = JsonValue.str "42".data ∧
      ¬ JsonValue.str "42".data = JsonValue.num ['4', '2'] :=
  ⟨rfl, rfl, fun h => JsonValue.noConfusion h⟩

/-- C2 (amended): for every input string that the preprocessor leaves
unchanged and that is valid JSON whose top-level value is an object or
array, the pipeline returns exactly the strict-parse value, via the
strict-parse path alone; valid JSON with a scalar top-level value is
returned as the original string instead. -/
theorem claim2_amended (s : List Char) (v : JsonValue)
    (hpre : preprocessChars s = s) (hp : jsonParseChars s = some v)
    (hobj : isObjLike v = true) :
    parsePipelineChars s = v := by
  have hs : strategies s = some v := by
    unfold strategies
    rw [hp]
    simp [hobj]
  unfold parsePipelineChars
  rw [hpre, hs]

/-- Witness for C2 (amended) on a concrete JSON object. -/
theorem claim2_amended_witness :
    parsePipelineChars "\x7b\"a\":1\x7d".data = JsonValue.obj [(['a'], JsonValue.num ['1'])] :=
  claim2_amended _ _ rfl rfl rfl

/-- C3: the repair strategies run in the fixed source order - strict
parse, fixed parse (`parseLLMJson` with fixes), regex extraction plus
strict parse of the span, `parseLLMJson` on the span, give-up - each
later stage only reached when every earlier stage failed to install an
object, and the first success short-circuiting the rest. The eight
conjuncts are the branches of the ladder, in order; `none` is the
give-up outcome (the caller then keeps the original string, claim C1). -/
theorem claim3_ladder (c : List Char) :
    (∀ v, jsonParseChars c = some v → isObjLike v = true → strategies c = some v) ∧
    (∀ v, jsonParseChars c = some v → isObjLike v = false → strategies c = none) ∧
    (jsonParseChars c = none → isObjLike (parseLLMJsonChars c routeOpts3) = true →
      strategies c = some (parseLLMJsonChars c routeOpts3)) ∧
    (jsonParseChars c = none → isObjLike (parseLLMJsonChars c routeOpts3) = false →
      regexExtract c = none → strategies c = none) ∧
    (∀ sp v, jsonParseChars c = none → isObjLike (parseLLMJsonChars c routeOpts3) = false →
      regexExtract c = some sp → jsonParseChars sp = some v → isObjLike v = true →
      strategies c = some v) ∧
    (∀ sp v, jsonParseChars c = none → isObjLike (parseLLMJsonChars c routeOpts3) = false →
      regexExtract c = some sp → jsonParseChars sp = some v → isObjLike v = false →
      strategies c = none) ∧
    (∀ sp, jsonParseChars c = none → isObjLike (parseLLMJsonChars c routeOpts3) = false →
      regexExtract c = some sp → jsonParseChars sp = none →
      isObjLike (parseLLMJsonChars sp routeOpts5) = true →
      strategies c = some (parseLLMJsonChars sp routeOpts5)) ∧
    (∀ sp, jsonParseChars c = none → isObjLike (parseLLMJsonChars c routeOpts3) = false →
      regexExtract c = some sp → jsonParseChars sp = none →
      isObjLike (parseLLMJsonChars sp routeOpts5) = false →
      strategies c = none) := by
  refine ⟨?_, ?_, ?_, ?_, ?_, ?_, ?_, ?_⟩
  · intro v h₁ h₂
    unfold strategies
    rw [h₁]
    simp [h₂]
  · intro v h₁ h₂
    unfold strategies
    rw [h₁]
    simp [h₂]
  · intro h₁ h₂
    unfold strategies
    rw [h₁]
    simp [h₂]
  · intro h₁ h₂ h₃
    unfold strategies
    rw [h₁]
    simp [h₂, h₃]
  · intro sp v h₁ h₂ h₃ h₄ h₅
    unfold strategies
    rw [h₁]
    simp [h₂, h₃, h₄, h₅]
  · intro sp v h₁ h₂ h₃ h₄ h₅
    unfold strategies
    rw [h₁]
    simp [h₂, h₃, h₄, h₅]
  · intro sp h₁ h₂ h₃ h₄ h₅
    unfold strategies
    rw [h₁]
    simp [h₂, h₃, h₄, h₅]
  · intro sp h₁ h₂ h₃ h₄ h₅
    unfold strategies
    rw [h₁]
    simp [h₂, h₃, h₄, h₅]

/-- Witness for C3: the strict-parse stage short-circuits the ladder on a
well-formed object. -/
theorem claim3_ladder_witness :
    strategies "\x7b\"a\":1\x7d".data = some (JsonValue.obj [(['a'], JsonValue.num ['1'])]) :=
  (claim3_ladder "\x7b\"a\":1\x7d".data).1 _ rfl rfl

/-- C5 counterexample: `{"a":"x\ny"}` (with the two-character escape in
the string value) is valid JSON, but escape normalization rewrites the
pair inside the string literal into a real line feed, after which strict
parsing rejects the text - the legitimate string-value content is
corrupted. -/
theorem claim5_cex :
    (jsonParseChars "\x7b\"a\":\"x\\ny\"\x7d".data).isSome = true ∧
      jsonParseChars (escNorm "\x7b\"a\":\"x\\ny\"\x7d".data) = none ∧
      ¬ escNorm "\x7b\"a\":\"x\\ny\"\x7d".data = "\x7b\"a\":\"x\\ny\"\x7d".data :=
  ⟨rfl, rfl, by decide⟩

/-- C5 (amended): escape normalization replaces exactly the literal
two-character pairs `\n`, `\r`, `\t` (leaving every other character,
including already-real control characters, unaltered - text without
backslashes passes through unchanged), but it does so context-
insensitively, including inside JSON string literals, so it can corrupt
a string value's legitimate content (the counterexample). -/
theorem claim5_amended :
    (∀ l : List Char, bs ∉ l → escNorm l = l) ∧
    (∀ l : List Char, escNorm (bs :: 'n' :: l) = nl :: escNorm l) ∧
    (∀ l : List Char, escNorm (bs :: 'r' :: l) = cr :: escNorm l) ∧
    (∀ l : List Char, escNorm (bs :: 't' :: l) = tab :: escNorm l) ∧
    (∀ (c : Char) (l : List Char), ¬ c = bs → escNorm (c :: l) = c :: escNorm l) :=
  ⟨escNorm_no_bs, escNorm_n, escNorm_r, escNorm_t, escNorm_head⟩

/-- Witness for C5 (amended) on concrete inputs. -/
theorem claim5_amended_witness :
    escNorm "abc".data = "abc".data ∧
      escNorm (bs :: 'n' :: "x".data) = nl :: escNorm "x".data :=
  ⟨claim5_amended.1 _ (by decide), claim5_amended.2.1 _⟩

/-- Running the strategy ladder directly on a string, with no
preprocessing, give-up returning that string: the right-hand side of
claim C6 as stated. -/
def ladderNoPre (c : List Char) : JsonValue :=
  match strategies c with
  | some v => v
  | none => .str c

/-- C6 counterexample: for fenced content `hello`, the pipeline on the
fenced string gives the whole original fenced string back (give-up keeps
the pre-preprocessing input), while the ladder on the unwrapped content
returns `hello` - the two runs differ. -/
theorem claim6_cex :
    ¬ parsePipelineChars (fenceChars "json".data "hello".data) =
        ladderNoPre "hello".data := by
  intro h
  have h₂ : JsonValue.str (fenceChars "json".data "hello".data) =
      JsonValue.str "hello".data := h
  injection h₂ with h₃
  exact absurd h₃ (by decide)

/-- C6 (amended): for a fence whose language tag the opening-fence regex
recognizes (`json`, `JSON`, or no tag at all - the only forms
`route.ts` line 156 strips), and content with no backslashes, no
backticks and no surrounding whitespace, preprocessing the fenced string
and preprocessing the bare content give the same cleaned text (namely the
content itself), so the strategy ladder behaves identically after
preprocessing. For any other language tag the opening pass removes only
the backticks, so the tag word survives into the cleaned text and the
equivalence fails (final conjunct, at tag `xml`); and the original claim
also fails because its right-hand side skips preprocessing and give-up
returns the fenced original (the counterexample). -/
theorem claim6_amended (tag c : List Char)
    (htag : tag = "json".data ∨ tag = "JSON".data ∨ tag = [])
    (hbs : bs ∉ c) (hbt : bt ∉ c) (htr : trimChars c = c) :
    (preprocessChars (fenceChars tag c) = preprocessChars c ∧
      strategies (preprocessChars (fenceChars tag c)) = strategies (preprocessChars c)) ∧
    ¬ preprocessChars (fenceChars "xml".data "hello".data) =
        preprocessChars "hello".data := by
  obtain ⟨h₁, _⟩ := preprocess_fence tag c htag hbs hbt htr
  exact ⟨⟨h₁, by rw [h₁]⟩, by decide⟩

/-- Witness for C6 (amended) on a concrete fenced object. -/
theorem claim6_amended_witness :
    preprocessChars (fenceChars "json".data "\x7b\"a\":1\x7d".data) =
        preprocessChars "\x7b\"a\":1\x7d".data :=
  (claim6_amended "json".data "\x7b\"a\":1\x7d".data (Or.inl rfl)
    (by decide) (by decide) (by decide)).1.1

/-- C7: the empty string, and any input whose cleaned form is empty (such
as a bare fence pair), is returned unchanged - the empty cleaned string
makes every strategy fail ("no JSON found") rather than raising. -/
theorem claim7_empty (s : List Char) (h : preprocessChars s = []) :
    parsePipelineChars s = JsonValue.str s := by
  have hstrat : strategies (preprocessChars s) = none := by
    rw [h]
    rfl
  unfold parsePipelineChars
  rw [hstrat]

/-- Witness for C7 at the empty string and at a fence-only input. -/
theorem claim7_empty_witness :
    parsePipelineChars "".data = JsonValue.str "".data ∧
      parsePipelineChars "```json\n```".data = JsonValue.str "```json\n```".data :=
  ⟨claim7_empty _ rfl, claim7_empty _ rfl⟩

/-- C8: the pipeline is a pure function of the input string: it is a
total Lean function of the character list alone (no state appears in any
signature), so two invocations on equal inputs give equal results. -/
theorem claim8_pure (s₁ s₂ : List Char) (h : s₁ = s₂) :
    parsePipelineChars s₁ = parsePipelineChars s₂ ∧
      handlerParse (JsonValue.str s₁) = handlerParse (JsonValue.str s₂) := by
  subst h
  exact ⟨rfl, rfl⟩

/-- Witness for C8 at a concrete input. -/
theorem claim8_pure_witness :
    parsePipelineChars "\x7b\x7d".data = parsePipelineChars "\x7b\x7d".data :=
  (claim8_pure "\x7b\x7d".data "\x7b\x7d".data rfl).1

/-- C9: the handler's parsed value is either the upstream response value
unchanged or a truthy value of object type (a mapping or a sequence):
every strategy installs its result only behind the
`parsed && typeof parsed === 'object'` guard, so the pipeline never
replaces the input with a differing scalar. -/
theorem claim9_obj_or_original (d : JsonValue) :
    handlerParse d = d ∨ isObjLike (handlerParse d) = true := by
  match d with
  | .str s =>
    rcases h : strategies (preprocessChars s) with _ | v
    · left
      show parsePipelineChars s = JsonValue.str s
      unfold parsePipelineChars
      rw [h]
    · right
      show isObjLike (parsePipelineChars s) = true
      unfold parsePipelineChars
      rw [h]
      exact strategies_isObjLike _ v h
  | .null => left; rfl
  | .bool b => left; rfl
  | .num x => left; rfl
  | .arr x => left; rfl
  | .obj x => left; rfl

/-- C10: the success response's `raw_response` field is always the
upstream `data.response` exactly as received; in particular, even when a
strategy succeeds and `response` is the freshly parsed object, the
`raw_response` field still holds the untouched original. -/
theorem claim10_raw (d : JsonValue) :
    (buildSuccess d).raw_response = d ∧
      ∀ s v, d = JsonValue.str s → strategies (preprocessChars s) = some v →
        (buildSuccess d).response = v := by
  refine ⟨rfl, ?_⟩
  intro s v hd hv
  subst hd
  show parsePipelineChars s = v
  unfold parsePipelineChars
  rw [hv]

/-- Witness for C10: a successfully parsed response, whose
`raw_response` is the original string while `response` is the object. -/
theorem claim10_raw_witness :
    (buildSuccess (JsonValue.str "\x7b\"a\":1\x7d".data)).raw_response =
        JsonValue.str "\x7b\"a\":1\x7d".data ∧
      (buildSuccess (JsonValue.str "\x7b\"a\":1\x7d".data)).response =
        JsonValue.obj [(['a'], JsonValue.num ['1'])] :=
  ⟨(claim10_raw _).1, (claim10_raw _).2 _ _ rfl rfl⟩

